import Mathlib

/-!
Verification development for the `alien` localization overlay tool.

The tool (src/main.rs, src/manifest.rs, src/path_structure.rs) overlays a
localized subtree of game asset files onto a fixed installation directory and
can later restore the original files from a backup archive taken at overlay
time.

Shallow embedding conventions:
* Filesystem paths are lists of components (`List String`); the empty list is
  the target root `alien_isolation_dir`.  Joining the root with a stripped
  relative path is list append with the root dropped.
* The live directory tree is a function `Fs` from paths to optional entries
  (regular file with its bytes, or directory).  Ancestor well-formedness is an
  explicit hypothesis (`WF`) where a proof needs it.
* Archive entries, as the zip library yields them, are records of an optional
  safe ("enclosed") name, the two kind flags, and optionally readable bytes.
* Case folding is modelled at the ASCII level (`Char.toLower` per character),
  mirroring `to_lowercase` on the path display string; lowering never touches
  the `/` separator, so it acts componentwise.
* The concurrent per-entry batches (`join_all` followed by collecting the
  first error) are modelled as sequential folds in entry order that run every
  entry, record the first error, and keep folding - matching "launch all,
  await all, first error wins".  A failing entry contributes no writes.
-/

namespace Alien

/-- Byte payloads of files, modelled as lists of naturals. -/
abbrev Bytes := List Nat

/-- One on-disk object: a regular file with its contents, or a directory. -/
inductive Entry where
  | file (bytes : Bytes)
  | dir
  deriving DecidableEq

/-- Whether an optional on-disk entry is a regular file. -/
def isFileO : Option Entry → Bool
  | some (Entry.file _) => true
  | _ => false

/-- The live directory tree under the target root: a map from root-relative
component paths to entries; `[]` is the target root itself. -/
abbrev Fs := (List String → Option Entry)

/-- Overwrite the entry at one path. -/
def Fs.set (fs : Fs) (p : List String) (e : Entry) : Fs :=
  fun q => if q = p then some e else fs q

/-- Remove the entry at one path. -/
def Fs.erase (fs : Fs) (p : List String) : Fs :=
  fun q => if q = p then none else fs q

/-- Build a finite filesystem from a list of path/entry pairs (earlier pairs
shadow later ones). -/
def Fs.ofPairs : List (List String × Entry) → Fs
  | [] => fun _ => none
  | pr :: rest => (Fs.ofPairs rest).set pr.1 pr.2

/-- Model of `tokio::fs::try_exists` / `Path::exists`: the path maps to an entry. -/
def tryExists (fs : Fs) (p : List String) : Bool := (fs p).isSome

/-- ASCII case folding of one component, mirroring `to_lowercase`. -/
def lowerStr (s : String) : String := String.mk (s.data.map Char.toLower)

/-- Case folding of a whole path, componentwise. -/
def lowerPath (p : List String) : List String := p.map lowerStr

/-- Model of `Path::display().to_string()`: components joined with `/`. -/
def display : List String → String
  | [] => ""
  | [x] => x
  | x :: xs => x ++ "/" ++ display xs

/-- Ancestor well-formedness of a tree: the target root is a directory, and
every strict ancestor of a present path is a directory. -/
def WF (fs : Fs) : Prop :=
  fs [] = some Entry.dir ∧
  ∀ p q : List String, (fs p).isSome = true → q.isPrefixOf p = true → q ≠ p →
    fs q = some Entry.dir

section PrefixFacts

variable {α : Type} [DecidableEq α]

theorem ipo_refl (l : List α) : l.isPrefixOf l = true := by
  induction l with
  | nil => rfl
  | cons a t ih => simp [List.isPrefixOf, ih]

theorem ipo_append (pre t : List α) : pre.isPrefixOf (pre ++ t) = true := by
  induction pre with
  | nil => simp [List.isPrefixOf]
  | cons a s ih => simp [List.isPrefixOf, ih]

theorem ipo_drop (pre l : List α) (h : pre.isPrefixOf l = true) :
    pre ++ l.drop pre.length = l := by
  induction pre generalizing l with
  | nil => simp
  | cons a s ih =>
    cases l with
    | nil => simp [List.isPrefixOf] at h
    | cons b t =>
      simp only [List.isPrefixOf, Bool.and_eq_true, beq_iff_eq] at h
      simp [h.1, ih t h.2]

theorem ipo_exists {pre l : List α} (h : pre.isPrefixOf l = true) :
    ∃ t, pre ++ t = l := ⟨l.drop pre.length, ipo_drop pre l h⟩

theorem ipo_length {pre l : List α} (h : pre.isPrefixOf l = true) :
    pre.length ≤ l.length := by
  obtain ⟨t, ht⟩ := ipo_exists h
  subst ht; simp

theorem ipo_of_append {pre t l : List α} (h : pre ++ t = l) :
    pre.isPrefixOf l = true := h ▸ ipo_append pre t

theorem ipo_trans {p q r : List α} (h1 : p.isPrefixOf q = true)
    (h2 : q.isPrefixOf r = true) : p.isPrefixOf r = true := by
  obtain ⟨t1, ht1⟩ := ipo_exists h1
  obtain ⟨t2, ht2⟩ := ipo_exists h2
  subst ht1; subst ht2
  have hassoc : p ++ (t1 ++ t2) = p ++ t1 ++ t2 :=
    (List.append_assoc p t1 t2).symm
  exact ipo_of_append hassoc

theorem ipo_antisymm {p q : List α} (h1 : p.isPrefixOf q = true)
    (h2 : q.length ≤ p.length) : p = q := by
  obtain ⟨t, ht⟩ := ipo_exists h1
  subst ht
  have : t = [] := by
    cases t with
    | nil => rfl
    | cons a s =>
      exfalso
      simp only [List.length_append, List.length_cons] at h2
      omega
  simp [this]

theorem dropLast_ipo (l : List α) : l.dropLast.isPrefixOf l = true := by
  induction l with
  | nil => rfl
  | cons a t ih =>
    cases t with
    | nil => rfl
    | cons b s => simpa [List.isPrefixOf] using ih

theorem ipo_mem_inits {q p : List α} (h : q.isPrefixOf p = true) :
    q ∈ p.inits := by
  obtain ⟨t, ht⟩ := ipo_exists h
  subst ht
  exact (List.mem_inits _ _).mpr ⟨t, rfl⟩

theorem mem_inits_ipo {q p : List α} (h : q ∈ p.inits) :
    q.isPrefixOf p = true := by
  obtain ⟨t, ht⟩ := (List.mem_inits _ _).mp h
  exact ipo_of_append ht

theorem self_mem_inits (l : List α) : l ∈ l.inits :=
  ipo_mem_inits (ipo_refl l)

theorem dropLast_mem_inits (l : List α) : l.dropLast ∈ l.inits :=
  ipo_mem_inits (dropLast_ipo l)

omit [DecidableEq α] in
theorem dropLast_length_lt {l : List α} (h : l ≠ []) :
    l.dropLast.length < l.length := by
  cases l with
  | nil => exact absurd rfl h
  | cons a t => simp [List.length_dropLast]

end PrefixFacts

theorem ofPairs_mem {l : List (List String × Entry)} {p : List String}
    {e : Entry} (h : Fs.ofPairs l p = some e) : (p, e) ∈ l := by
  induction l with
  | nil => simp [Fs.ofPairs] at h
  | cons pr rest ih =>
    by_cases hp : p = pr.1
    · subst hp
      simp [Fs.ofPairs, Fs.set] at h
      subst h
      exact List.mem_cons_self _ _
    · simp [Fs.ofPairs, Fs.set, hp] at h
      exact List.mem_cons_of_mem _ (ih h)

/-- Ancestor well-formedness of a concrete finite tree can be established by
checking the (decidable) side conditions on its listing. -/
theorem ofPairs_WF (l : List (List String × Entry))
    (h0 : Fs.ofPairs l [] = some Entry.dir)
    (h1 : ∀ pr ∈ l, ∀ q ∈ pr.1.inits, q ≠ pr.1 →
      Fs.ofPairs l q = some Entry.dir) : WF (Fs.ofPairs l) := by
  refine ⟨h0, ?_⟩
  intro p q hsome hpre hne
  match hval : Fs.ofPairs l p with
  | none => rw [hval] at hsome; simp at hsome
  | some e =>
    have hmem := ofPairs_mem hval
    exact h1 (p, e) hmem q (ipo_mem_inits hpre) hne

/-!
## Manifest model (src/manifest.rs)
-/

/-- One archive entry as the zip library yields it: an optional safe relative
name (`enclosed_name`, `none` when the stored name escapes the archive root),
the two kind flags, and the entry payload (`none` when reading the bytes
fails). -/
structure ZipEntryRaw where
  enclosedName : Option (List String)
  isFileFlag : Bool
  isDirFlag : Bool
  bytesRead : Option Bytes
  deriving DecidableEq

/-- A decoded manifest entry (`ManifestItem` in src/manifest.rs). -/
structure ManifestItem where
  path : List String
  lowercase_name : List String
  bytes : Bytes
  is_file : Bool
  is_dir : Bool
  deriving DecidableEq

/-- Model of `ManifestItem::new` (src/manifest.rs lines 110-128): keep the kind flags,
require a safe enclosed name, lowercase the displayed path, and require the
bytes to be fully readable; otherwise the entry is dropped (`None`). -/
def ManifestItem.new (e : ZipEntryRaw) : Option ManifestItem := do
  let p ← e.enclosedName
  let b ← e.bytesRead
  some ⟨p, lowerPath p, b, e.isFileFlag, e.isDirFlag⟩

/-- A manifest: the ordered sequence of decoded items. -/
abbrev Manifest := List ManifestItem

/-- Model of `Manifest::new` (src/manifest.rs lines 36-49): decode every archive entry
in order, dropping the entries `ManifestItem::new` rejects. -/
def Manifest.new (entries : List ZipEntryRaw) : Manifest :=
  entries.filterMap ManifestItem.new

/-- Model of `path_structure::hans_dir()`: the language subtree root. -/
def hans_dir : List String := ["language", "zh_cn_hans"]

/-- Model of `Path::strip_prefix(..).ok()`: remove a leading component prefix. -/
def stripPrefixComponents (pre p : List String) : Option (List String) :=
  if pre.isPrefixOf p then some (p.drop pre.length) else none

/-- Model of `Manifest::filter_hans_dir` (src/manifest.rs lines 75-98): keep the items
whose `lowercase_name` starts with the subtree root, pair each with the
prefix-stripped remainder, and drop pairs whose remainder has no component. -/
def filter_hans_dir (m : Manifest) : List (ManifestItem × List String) :=
  ((m.filter (fun it => hans_dir.isPrefixOf it.lowercase_name)).filterMap
    (fun it => (stripPrefixComponents hans_dir it.lowercase_name).map
      (fun s => (it, s)))).filter
    (fun pr => !pr.2.isEmpty)

theorem isEmpty_false_iff {α : Type} {l : List α} :
    l.isEmpty = false ↔ l ≠ [] := by
  cases l <;> simp

theorem filter_hans_dir_mem (m : Manifest) (pr : ManifestItem × List String) :
    pr ∈ filter_hans_dir m ↔
      pr.1 ∈ m ∧ pr.1.lowercase_name = hans_dir ++ pr.2 ∧ pr.2 ≠ [] := by
  unfold filter_hans_dir
  rw [List.mem_filter, List.mem_filterMap]
  constructor
  · rintro ⟨⟨it, hit, hmap⟩, hne⟩
    rw [List.mem_filter] at hit
    cases hs : stripPrefixComponents hans_dir it.lowercase_name with
    | none => rw [hs] at hmap; simp at hmap
    | some s =>
      rw [hs] at hmap
      simp only [Option.map] at hmap
      injection hmap with hmap
      subst hmap
      unfold stripPrefixComponents at hs
      rw [if_pos hit.2] at hs
      injection hs with hs
      refine ⟨hit.1, ?_, ?_⟩
      · rw [← hs]
        exact (ipo_drop _ _ hit.2).symm
      · have := isEmpty_false_iff.mp (by simpa using hne)
        simpa using this
  · rintro ⟨hmem, heq, hne⟩
    have hipo : hans_dir.isPrefixOf pr.1.lowercase_name = true :=
      ipo_of_append heq.symm
    have hstrip : stripPrefixComponents hans_dir pr.1.lowercase_name =
        some pr.2 := by
      unfold stripPrefixComponents
      rw [if_pos hipo, heq]
      simp
    refine ⟨⟨pr.1, ?_, ?_⟩, ?_⟩
    · rw [List.mem_filter]
      exact ⟨hmem, hipo⟩
    · rw [hstrip]
      rfl
    · simpa using isEmpty_false_iff.mpr hne

theorem filter_hans_dir_sublist (m : Manifest) :
    List.Sublist ((filter_hans_dir m).map Prod.fst) m := by
  unfold filter_hans_dir
  have h1 : ∀ (l : List ManifestItem),
      List.Sublist
        (((l.filterMap (fun it =>
            (stripPrefixComponents hans_dir it.lowercase_name).map
              (fun s => (it, s)))).filter
          (fun pr => !pr.2.isEmpty)).map Prod.fst) l := by
    intro l
    induction l with
    | nil => simp
    | cons a t ih =>
      rw [List.filterMap_cons]
      cases hmap : stripPrefixComponents hans_dir a.lowercase_name with
      | none =>
        exact List.Sublist.cons a ih
      | some s =>
        show List.Sublist (List.map Prod.fst (List.filter _ ((a, s) :: _))) _
        rw [List.filter_cons]
        by_cases hb : (!(a, s).2.isEmpty) = true
        · rw [if_pos hb]
          rw [List.map_cons]
          exact List.Sublist.cons₂ a ih
        · rw [if_neg hb]
          exact List.Sublist.cons a ih
  exact (h1 (m.filter _)).trans (List.filter_sublist m)

/-!
## Flow model (src/main.rs)
-/

/-- Errors surfaced by the flows, tagged with enough data to identify the
report the code builds. -/
inductive Err where
  | missingBaseline (paths : List (List String))
  | backupRead (path : List String)
  | dirMismatch (needsRemoveDirLen manifestDirLen : Nat)
  | notADir (path : List String)
  | openFailed (path : List String)
  deriving DecidableEq

/-- The `not_found` collection of the integrity check (src/main.rs lines
65-78): every stripped path that has at least one component, does not exist
on disk, and whose display string is not whitelisted, in view order. -/
def notFoundList (wl : List String) (fs : Fs)
    (filtered : List (ManifestItem × List String)) : List (List String) :=
  filtered.filterMap (fun pr =>
    if !pr.2.isEmpty && !tryExists fs pr.2 && !wl.contains (display pr.2)
    then some pr.2 else none)

/-- Model of `check_manifest_for_game_data` (src/main.rs lines 57-91): fail with the
aggregated `not_found` list when it is non-empty, succeed otherwise. -/
def check_manifest_for_game_data (wl : List String) (fs : Fs)
    (filtered : List (ManifestItem × List String)) : Except Err Unit :=
  let notFound := notFoundList wl fs filtered
  if notFound.isEmpty then Except.ok () else Except.error (.missingBaseline notFound)

/-- One concurrent read of the backup phase (src/main.rs lines 113-134):
a missing path is skipped when whitelisted and is this entry's error
otherwise; a file contributes its bytes, any other entry kind contributes a
directory record (payload `none`). -/
def readEntry (wl : List String) (fs : Fs) (s : List String) :
    Except Err (Option (List String × Option Bytes)) :=
  match fs s with
  | none =>
    if wl.contains (display s) then Except.ok none
    else Except.error (.backupRead s)
  | some (Entry.file b) => Except.ok (some (s, some b))
  | some Entry.dir => Except.ok (some (s, none))

/-- Model of `collect::<Result<Vec<_>>>` over the awaited reads followed by
`flatten()`: short-circuit to the first error, drop the skipped entries. -/
def collectReads :
    List (Except Err (Option (List String × Option Bytes))) →
      Except Err (List (List String × Option Bytes))
  | [] => Except.ok []
  | Except.error e :: _ => Except.error e
  | Except.ok none :: rest => collectReads rest
  | Except.ok (some pr) :: rest => (collectReads rest).map (pr :: ·)

/-- The `HashMap` built by `collect` over the read results: on duplicate keys
the last insertion wins. -/
def mapLookup (l : List (List String × Option Bytes)) (k : List String) :
    Option (Option Bytes) :=
  (l.reverse.find? (fun pr => decide (pr.1 = k))).map Prod.snd

/-- Model of `backup_alien_isolation_data` (src/main.rs lines 93-180): read the current
state of every filtered path concurrently (first error wins), then assemble
the archive sequentially in filtered order, skipping entries absent from the
results map, adding a directory record for payload `none` and a file record
otherwise.  The archive is returned as its entry listing. -/
def backup_alien_isolation_data (wl : List String)
    (filtered : List (ManifestItem × List String)) (fs : Fs) :
    Except Err (List (List String × Entry)) :=
  match collectReads (filtered.map (fun pr => readEntry wl fs pr.2)) with
  | Except.error e => Except.error e
  | Except.ok buffers =>
    Except.ok (filtered.filterMap (fun pr =>
      match mapLookup buffers pr.2 with
      | none => none
      | some none => some (pr.2, Entry.dir)
      | some (some b) => some (pr.2, Entry.file b)))

/-- Model of `std::fs::create_dir_all` on one path: walk the chain of prefixes from the
root, leaving existing directories alone, creating missing ones, and failing
on a path that exists as a regular file. -/
def ensureDir (fs : Fs) (p : List String) : Except Err Fs :=
  match fs p with
  | some Entry.dir => Except.ok fs
  | some (Entry.file _) => Except.error (.notADir p)
  | none => Except.ok (fs.set p Entry.dir)

def createDirAll (fs : Fs) (p : List String) : Except Err Fs :=
  p.inits.foldlM ensureDir fs

/-- Model of `OpenOptions::new().write(true).create(true).truncate(true)` followed by
`write_all`: requires the parent to exist as a directory, refuses a path that
is an existing directory, and otherwise replaces the path with a regular file
holding the given bytes. -/
def openWriteTruncate (fs : Fs) (p : List String) (b : Bytes) :
    Except Err Fs :=
  match fs p.dropLast with
  | some Entry.dir =>
    match fs p with
    | some Entry.dir => Except.error (.openFailed p)
    | _ => Except.ok (fs.set p (Entry.file b))
  | _ => Except.error (.openFailed p)

/-- Model of `write_file` (src/main.rs lines 242-261).  For a file item: create the
parent chain only when the parent already exists, then create-or-truncate the
target and write the item's bytes.  For any other item: create the directory
chain only when the target path already exists. -/
def write_file (item : ManifestItem) (p : List String) (fs : Fs) :
    Except Err Fs :=
  if item.is_file then
    match (if tryExists fs p.dropLast then createDirAll fs p.dropLast
           else Except.ok fs) with
    | Except.error e => Except.error e
    | Except.ok fs1 => openWriteTruncate fs1 p item.bytes
  else
    if tryExists fs p then createDirAll fs p else Except.ok fs

/-- One concurrent write batch (`join_all` + collect): run every entry in
order, keep the first error, let a failing entry contribute no writes. -/
def writeAll (view : List (ManifestItem × List String)) (fs : Fs) :
    Except Err Unit × Fs :=
  view.foldl (fun acc pr =>
    match write_file pr.1 pr.2 acc.2 with
    | Except.ok fs1 => (acc.1, fs1)
    | Except.error e =>
      (match acc.1 with
       | Except.ok _ => Except.error e
       | Except.error e0 => Except.error e0, acc.2))
    (Except.ok (), fs)

/-- The pure effect of a successful write batch: file items overwrite their
target with their bytes, other items leave the tree unchanged. -/
def foldSet (view : List (ManifestItem × List String)) (fs : Fs) : Fs :=
  view.foldl (fun g pr =>
    if pr.1.is_file then g.set pr.2 (Entry.file pr.1.bytes) else g) fs

/-- Model of `chinese` (src/main.rs lines 182-197): write every filtered item over the
live tree. -/
def chinese (filtered : List (ManifestItem × List String)) (fs : Fs) :
    Except Err Unit × Fs :=
  writeAll filtered fs

/-- One removal task of the restore flow (src/main.rs lines 218-225): stat
the path, and delete it only when it currently exists as a regular file. -/
def removeOne (fs : Fs) (p : List String) : Fs :=
  match fs p with
  | some (Entry.file _) => fs.erase p
  | _ => fs

/-- The removal batch of `english` (src/main.rs lines 213-228): only the
file-flagged entries of the needs-remove view are considered. -/
def removal (filtered : List (ManifestItem × List String)) (fs : Fs) : Fs :=
  (filtered.filter (fun pr => pr.1.is_file)).foldl
    (fun g pr => removeOne g pr.2) fs

/-- Directory-entry count of a filtered view. -/
def countDirsView (view : List (ManifestItem × List String)) : Nat :=
  (view.filter (fun pr => pr.1.is_dir)).length

/-- Directory-entry count of a manifest. -/
def countDirs (m : Manifest) : Nat :=
  (m.filter (fun it => it.is_dir)).length

/-- Model of `english` (src/main.rs lines 199-240): filter the needs-remove manifest
to the language subtree, fail on a directory-count mismatch before touching
the tree, otherwise delete the filtered file entries and rewrite every item
of `manifest` at its `lowercase_name`. -/
def english (manifest needs_remove : Manifest) (fs : Fs) :
    Except Err Unit × Fs :=
  let filtered := filter_hans_dir needs_remove
  let needs_remove_dir_len := countDirsView filtered
  let manifest_dir_len := countDirs manifest
  if needs_remove_dir_len ≠ manifest_dir_len then
    (Except.error (.dirMismatch needs_remove_dir_len manifest_dir_len), fs)
  else
    let fs1 := removal filtered fs
    writeAll (manifest.map (fun it => (it, it.lowercase_name))) fs1

/-- Reloading a written archive entry (`Manifest::read_from_backup_zip`,
src/manifest.rs lines 64-73): directory records come back as directory
entries with empty payload, file records with their bytes. -/
def rawOfStored : (List String × Entry) → ZipEntryRaw
  | (s, Entry.file b) => ⟨some s, true, false, some b⟩
  | (s, Entry.dir) => ⟨some s, false, true, some []⟩

def read_from_backup_zip (arc : List (List String × Entry)) : Manifest :=
  Manifest.new (arc.map rawOfStored)

/-- The restore wiring of `main` (src/main.rs lines 48-52): the freshly read
embedded language manifest becomes `needs_remove`, the reloaded backup
archive becomes the `manifest` argument whose items are rewritten. -/
def mainEnglish (embedded : Manifest) (barc : List (List String × Entry))
    (fs : Fs) : Except Err Unit × Fs :=
  english (read_from_backup_zip barc) embedded fs

/-- Modelled from the spec ("reload the just-created backup archive as the
needs-remove manifest, ... then rewrite every item from the full original
(English) manifest"): the same restore with the two manifest roles as the
spec describes them, for comparison with `mainEnglish`. -/
def englishPerSpec (embedded : Manifest) (barc : List (List String × Entry))
    (fs : Fs) : Except Err Unit × Fs :=
  english embedded (read_from_backup_zip barc) fs

/-- The overlay wiring of `main` (src/main.rs lines 42-47): integrity check,
backup, then overlay write; the produced backup archive is returned next to
the updated tree. -/
def mainChinese (wl : List String) (m : Manifest) (fs : Fs) :
    Except Err (List (List String × Entry) × Fs) :=
  let filtered := filter_hans_dir m
  match check_manifest_for_game_data wl fs filtered with
  | Except.error e => Except.error e
  | Except.ok _ =>
    match backup_alien_isolation_data wl filtered fs with
    | Except.error e => Except.error e
    | Except.ok arc =>
      match chinese filtered fs with
      | (Except.ok _, fs1) => Except.ok (arc, fs1)
      | (Except.error e, _) => Except.error e

/-- Overlay run followed by a restore run on the resulting tree, with the
embedded manifest re-read (it is a compiled-in constant, so both runs see the
same manifest) and the backup archive reloaded from disk. -/
def overlayThenRestore (wl : List String) (m : Manifest) (fs : Fs) :
    Except Err Fs :=
  match mainChinese wl m fs with
  | Except.error e => Except.error e
  | Except.ok (arc, fs1) =>
    match mainEnglish m arc fs1 with
    | (Except.ok _, fs2) => Except.ok fs2
    | (Except.error e, _) => Except.error e

/-!
## Characterizations of the write, removal and backup batches
-/

theorem Fs.set_apply (g : Fs) (p q : List String) (e : Entry) :
    Fs.set g p e q = if q = p then some e else g q := rfl

theorem Fs.erase_apply (g : Fs) (p q : List String) :
    Fs.erase g p q = if q = p then none else g q := rfl

/-- Every prefix of the path (the target root included) is already a
directory. -/
def chainDirs (g : Fs) (p : List String) : Prop :=
  ∀ q ∈ p.inits, g q = some Entry.dir

theorem createDirAll_noop {g : Fs} {p : List String} (h : chainDirs g p) :
    createDirAll g p = Except.ok g := by
  unfold createDirAll
  have : ∀ (l : List (List String)), (∀ q ∈ l, g q = some Entry.dir) →
      l.foldlM ensureDir g = Except.ok g := by
    intro l hl
    induction l with
    | nil => rfl
    | cons q rest ih =>
      have hq : ensureDir g q = Except.ok g := by
        unfold ensureDir
        rw [hl q (List.mem_cons_self _ _)]
      simp only [List.foldlM_cons, hq]
      exact ih (fun r hr => hl r (List.mem_cons_of_mem _ hr))
  exact this p.inits h

theorem write_file_file_ok {item : ManifestItem} {p : List String} {g : Fs}
    (hf : item.is_file = true) (hchain : chainDirs g p.dropLast)
    (hnd : g p ≠ some Entry.dir) :
    write_file item p g = Except.ok (g.set p (Entry.file item.bytes)) := by
  unfold write_file
  rw [if_pos hf]
  have hparent : g p.dropLast = some Entry.dir :=
    hchain p.dropLast (self_mem_inits _)
  have hex : tryExists g p.dropLast = true := by
    unfold tryExists; rw [hparent]; rfl
  rw [if_pos hex, createDirAll_noop hchain]
  show openWriteTruncate g p item.bytes = _
  unfold openWriteTruncate
  rw [hparent]
  match hp : g p with
  | none => rfl
  | some (Entry.file b) => rfl
  | some Entry.dir => exact absurd hp hnd

theorem write_file_dir_ok {item : ManifestItem} {p : List String} {g : Fs}
    (hf : item.is_file = false) (hchain : chainDirs g p) :
    write_file item p g = Except.ok g := by
  unfold write_file
  rw [if_neg (by rw [hf]; simp)]
  have hp : g p = some Entry.dir := hchain p (self_mem_inits _)
  have hex : tryExists g p = true := by
    unfold tryExists; rw [hp]; rfl
  rw [if_pos hex]
  exact createDirAll_noop hchain

theorem write_file_dir_skip {item : ManifestItem} {p : List String} {g : Fs}
    (hf : item.is_file = false) (hp : g p = none) :
    write_file item p g = Except.ok g := by
  unfold write_file
  rw [if_neg (by rw [hf]; simp)]
  have hex : tryExists g p = false := by
    unfold tryExists; rw [hp]; rfl
  rw [if_neg (by rw [hex]; simp)]

theorem writeAll_cons_ok {pr : ManifestItem × List String}
    {rest : List (ManifestItem × List String)} {g g1 : Fs}
    (h : write_file pr.1 pr.2 g = Except.ok g1) :
    writeAll (pr :: rest) g = writeAll rest g1 := by
  unfold writeAll
  rw [List.foldl_cons, h]

theorem foldSet_cons (pr : ManifestItem × List String)
    (rest : List (ManifestItem × List String)) (g : Fs) :
    foldSet (pr :: rest) g =
      foldSet rest
        (if pr.1.is_file then g.set pr.2 (Entry.file pr.1.bytes) else g) := by
  unfold foldSet
  rw [List.foldl_cons]

/-- The write batch succeeds on a view when: every file entry has a non-empty
path, its parent chain present as directories and its target not an existing
directory; every non-file entry has its full chain present as directories;
and no file entry's path is a prefix of a distinct entry's path. -/
def writableView (g : Fs) (view : List (ManifestItem × List String)) : Prop :=
  (∀ pr ∈ view, pr.1.is_file = true →
    pr.2 ≠ [] ∧ chainDirs g pr.2.dropLast ∧ g pr.2 ≠ some Entry.dir) ∧
  (∀ pr ∈ view, pr.1.is_file = false → chainDirs g pr.2) ∧
  (∀ pr ∈ view, pr.1.is_file = true → ∀ qr ∈ view,
    (qr.1.is_file = true → pr.2.isPrefixOf qr.2 = true → pr.2 = qr.2) ∧
    (qr.1.is_file = false → pr.2.isPrefixOf qr.2 = false))

theorem writeAll_ok : ∀ (view : List (ManifestItem × List String)) (g : Fs),
    writableView g view → writeAll view g = (Except.ok (), foldSet view g) := by
  intro view
  induction view with
  | nil => intro g _; rfl
  | cons pr rest ih =>
    intro g hw
    obtain ⟨hA, hB, hC⟩ := hw
    rw [foldSet_cons]
    by_cases hf : pr.1.is_file = true
    · obtain ⟨hne, hchain, hnd⟩ := hA pr (List.mem_cons_self _ _) hf
      rw [writeAll_cons_ok (write_file_file_ok hf hchain hnd), if_pos hf]
      apply ih
      set g1 := g.set pr.2 (Entry.file pr.1.bytes) with hg1
      have happly : ∀ q, q ≠ pr.2 → g1 q = g q := by
        intro q hq
        rw [hg1, Fs.set_apply, if_neg hq]
      refine ⟨?_, ?_, ?_⟩
      · intro qr hqr hqf
        obtain ⟨hqne, hqchain, hqnd⟩ :=
          hA qr (List.mem_cons_of_mem _ hqr) hqf
        refine ⟨hqne, ?_, ?_⟩
        · intro q hq
          have hipoq : q.isPrefixOf qr.2 = true :=
            ipo_trans (mem_inits_ipo hq) (dropLast_ipo _)
          have hqns : q ≠ pr.2 := by
            intro hcontra
            have heqq : pr.2 = qr.2 :=
              (hC pr (List.mem_cons_self _ _) hf qr
                (List.mem_cons_of_mem _ hqr)).1 hqf (hcontra ▸ hipoq)
            have hlt : qr.2.dropLast.length < qr.2.length :=
              dropLast_length_lt (heqq ▸ hne)
            have hle : q.length ≤ qr.2.dropLast.length :=
              ipo_length (mem_inits_ipo hq)
            rw [hcontra, heqq] at hle
            omega
          rw [happly q hqns]
          exact hqchain q hq
        · by_cases hqs : qr.2 = pr.2
          · rw [hg1, Fs.set_apply, if_pos hqs]
            simp
          · rw [happly qr.2 hqs]
            exact hqnd
      · intro qr hqr hqf
        intro q hq
        have hqns : q ≠ pr.2 := by
          intro hcontra
          have hfalse := (hC pr (List.mem_cons_self _ _) hf qr
            (List.mem_cons_of_mem _ hqr)).2 hqf
          have htrue := mem_inits_ipo hq
          rw [hcontra, hfalse] at htrue
          simp at htrue
        rw [happly q hqns]
        exact hB qr (List.mem_cons_of_mem _ hqr) hqf q hq
      · intro qr hqr hqf sr hsr
        exact hC qr (List.mem_cons_of_mem _ hqr) hqf sr
          (List.mem_cons_of_mem _ hsr)
    · have hf0 : pr.1.is_file = false := by
        cases h : pr.1.is_file
        · rfl
        · exact absurd h hf
      rw [writeAll_cons_ok (write_file_dir_ok hf0
        (hB pr (List.mem_cons_self _ _) hf0)), if_neg hf]
      apply ih
      refine ⟨?_, ?_, ?_⟩
      · intro qr hqr hqf
        exact hA qr (List.mem_cons_of_mem _ hqr) hqf
      · intro qr hqr hqf
        exact hB qr (List.mem_cons_of_mem _ hqr) hqf
      · intro qr hqr hqf sr hsr
        exact hC qr (List.mem_cons_of_mem _ hqr) hqf sr
          (List.mem_cons_of_mem _ hsr)

theorem find?_append {α : Type} (l1 l2 : List α) (f : α → Bool) :
    (l1 ++ l2).find? f =
      match l1.find? f with
      | some x => some x
      | none => l2.find? f := by
  induction l1 with
  | nil => simp
  | cons a t ih =>
    cases hf : f a with
    | true => simp [List.find?, hf]
    | false => simp [List.find?, hf, ih]

/-- The last file entry of the view targeting a given path, if any. -/
def lastFileWrite (view : List (ManifestItem × List String))
    (p : List String) : Option Bytes :=
  (view.reverse.find? (fun pr => pr.1.is_file && decide (pr.2 = p))).map
    (fun pr => pr.1.bytes)

theorem foldSet_apply :
    ∀ (view : List (ManifestItem × List String)) (g : Fs) (p : List String),
    foldSet view g p =
      match lastFileWrite view p with
      | some b => some (Entry.file b)
      | none => g p := by
  intro view
  induction view with
  | nil => intro g p; rfl
  | cons pr rest ih =>
    intro g p
    rw [foldSet_cons, ih]
    have hrw : lastFileWrite (pr :: rest) p =
        match lastFileWrite rest p with
        | some b => some b
        | none =>
          if pr.1.is_file && decide (pr.2 = p) then some pr.1.bytes
          else none := by
      unfold lastFileWrite
      rw [List.reverse_cons, find?_append]
      cases hfind : rest.reverse.find? (fun q => q.1.is_file && decide (q.2 = p)) with
      | some q => simp
      | none =>
        simp only [Option.map]
        cases hcond : (pr.1.is_file && decide (pr.2 = p)) with
        | true => simp [List.find?, hcond]
        | false => simp [List.find?, hcond]
    rw [hrw]
    cases hlast : lastFileWrite rest p with
    | some b => rfl
    | none =>
      cases hcond : (pr.1.is_file && decide (pr.2 = p)) with
      | true =>
        have hforced : pr.1.is_file = true ∧ pr.2 = p := by
          have := hcond
          simp only [Bool.and_eq_true, decide_eq_true_eq] at this
          exact this
        rw [if_pos hforced.1, Fs.set_apply, if_pos hforced.2.symm]
        rfl
      | false =>
        by_cases hfile : pr.1.is_file = true
        · have hnp : ¬(pr.2 = p) := by
            intro hcontra
            rw [hfile, hcontra] at hcond
            simp at hcond
          rw [if_pos hfile, Fs.set_apply, if_neg (fun h => hnp h.symm)]
          rfl
        · rw [if_neg hfile]
          rfl

theorem lastFileWrite_eq_none {view : List (ManifestItem × List String)}
    {p : List String}
    (h : ∀ pr ∈ view, pr.1.is_file = true → pr.2 ≠ p) :
    lastFileWrite view p = none := by
  unfold lastFileWrite
  rw [List.find?_eq_none.mpr]
  · rfl
  · intro pr hpr
    rw [List.mem_reverse] at hpr
    simp only [Bool.and_eq_true, decide_eq_true_eq, not_and]
    intro hfile
    exact h pr hpr hfile

/-- The stripped paths of the file-flagged entries of a view. -/
def fileStrips (view : List (ManifestItem × List String)) :
    List (List String) :=
  (view.filter (fun pr => pr.1.is_file)).map Prod.snd

theorem removeOne_apply_self (g : Fs) (q : List String) :
    removeOne g q q = if isFileO (g q) = true then none else g q := by
  unfold removeOne
  match hg : g q with
  | some (Entry.file b) =>
    show (g.erase q) q = _
    rw [Fs.erase_apply, if_pos rfl]
    simp [isFileO]
  | some Entry.dir =>
    show g q = _
    simp [isFileO, hg]
  | none =>
    show g q = _
    simp [isFileO, hg]

theorem removeOne_apply_other (g : Fs) (q p : List String) (h : q ≠ p) :
    removeOne g q p = g p := by
  unfold removeOne
  match hg : g q with
  | some (Entry.file b) =>
    show (g.erase q) p = _
    rw [Fs.erase_apply, if_neg (fun hc => h hc.symm)]
  | some Entry.dir => rfl
  | none => rfl

theorem removeFold_apply :
    ∀ (l : List (ManifestItem × List String)) (g : Fs) (p : List String),
    (l.foldl (fun h pr => removeOne h pr.2) g) p =
      if (∃ pr ∈ l, pr.2 = p) ∧ isFileO (g p) = true then none else g p := by
  intro l
  induction l with
  | nil =>
    intro g p
    rw [if_neg]
    · rfl
    · rintro ⟨⟨pr, hpr, _⟩, _⟩
      simp at hpr
  | cons a rest ih =>
    intro g p
    rw [List.foldl_cons]
    show (rest.foldl (fun h pr => removeOne h pr.2) (removeOne g a.2)) p = _
    rw [ih]
    by_cases ha : a.2 = p
    · subst ha
      by_cases hfo : isFileO (g a.2) = true
      · have hval : removeOne g a.2 a.2 = none := by
          rw [removeOne_apply_self, if_pos hfo]
        rw [hval]
        rw [if_neg (by rintro ⟨_, hbad⟩; simp [isFileO] at hbad)]
        rw [if_pos ⟨⟨a, List.mem_cons_self _ _, rfl⟩, hfo⟩]
      · have hval : removeOne g a.2 a.2 = g a.2 := by
          rw [removeOne_apply_self, if_neg hfo]
        rw [hval]
        rw [if_neg (fun hc => hfo hc.2), if_neg (fun hc => hfo hc.2)]
    · have hval : removeOne g a.2 p = g p := removeOne_apply_other g a.2 p ha
      rw [hval]
      by_cases hex : (∃ pr ∈ rest, pr.2 = p) ∧ isFileO (g p) = true
      · rw [if_pos hex,
          if_pos ⟨⟨hex.1.choose, List.mem_cons_of_mem _ hex.1.choose_spec.1,
            hex.1.choose_spec.2⟩, hex.2⟩]
      · rw [if_neg hex, if_neg]
        rintro ⟨⟨pr, hpr, hpp⟩, hfo⟩
        rcases List.mem_cons.mp hpr with hh | ht
        · exact ha (by rw [hh] at hpp; exact hpp)
        · exact hex ⟨⟨pr, ht, hpp⟩, hfo⟩

theorem removal_apply (view : List (ManifestItem × List String)) (g : Fs)
    (p : List String) :
    removal view g p =
      if (∃ pr ∈ view, pr.1.is_file = true ∧ pr.2 = p) ∧
          isFileO (g p) = true
      then none else g p := by
  unfold removal
  rw [removeFold_apply]
  have hiff : (∃ pr ∈ view.filter (fun pr => pr.1.is_file), pr.2 = p) ↔
      (∃ pr ∈ view, pr.1.is_file = true ∧ pr.2 = p) := by
    constructor
    · rintro ⟨pr, hpr, hpp⟩
      rw [List.mem_filter] at hpr
      exact ⟨pr, hpr.1, hpr.2, hpp⟩
    · rintro ⟨pr, hpr, hfile, hpp⟩
      exact ⟨pr, List.mem_filter.mpr ⟨hpr, hfile⟩, hpp⟩
  by_cases hc : (∃ pr ∈ view, pr.1.is_file = true ∧ pr.2 = p) ∧
      isFileO (g p) = true
  · rw [if_pos ⟨hiff.mpr hc.1, hc.2⟩, if_pos hc]
  · rw [if_neg (fun h => hc ⟨hiff.mp h.1, h.2⟩), if_neg hc]

theorem english_ok (manifest needs_remove : Manifest) (fs : Fs)
    (hc : countDirsView (filter_hans_dir needs_remove) = countDirs manifest)
    (hw : writableView (removal (filter_hans_dir needs_remove) fs)
      (manifest.map (fun it => (it, it.lowercase_name)))) :
    english manifest needs_remove fs =
      (Except.ok (),
        foldSet (manifest.map (fun it => (it, it.lowercase_name)))
          (removal (filter_hans_dir needs_remove) fs)) := by
  unfold english
  rw [if_neg (by simp [hc])]
  exact writeAll_ok _ _ hw

/-!
## Characterizations of the integrity check, the backup and the reload
-/

theorem notFoundList_eq_nil {wl : List String} {fs : Fs}
    {view : List (ManifestItem × List String)}
    (h : ∀ pr ∈ view, (fs pr.2).isSome = true) :
    notFoundList wl fs view = [] := by
  unfold notFoundList
  rw [List.filterMap_eq_nil]
  intro pr hpr
  rw [if_neg]
  intro hcond
  have : tryExists fs pr.2 = true := h pr hpr
  rw [this] at hcond
  simp at hcond

theorem check_eq_ok {wl : List String} {fs : Fs}
    {view : List (ManifestItem × List String)}
    (h : notFoundList wl fs view = []) :
    check_manifest_for_game_data wl fs view = Except.ok () := by
  unfold check_manifest_for_game_data
  rw [h]
  rfl

/-- The payload the backup read phase records for one on-disk entry:
file bytes, or `none` for a directory record. -/
def payloadOf : Entry → Option Bytes
  | Entry.file b => some b
  | Entry.dir => none

theorem readEntry_present {wl : List String} {fs : Fs} {s : List String}
    {e : Entry} (h : fs s = some e) :
    readEntry wl fs s = Except.ok (some (s, payloadOf e)) := by
  unfold readEntry
  rw [h]
  cases e <;> rfl

theorem collectReads_all_ok (wl : List String) (fs : Fs) :
    ∀ (view : List (ManifestItem × List String)),
    (∀ pr ∈ view, (fs pr.2).isSome = true) →
    collectReads (view.map (fun pr => readEntry wl fs pr.2)) =
      Except.ok (view.map (fun pr =>
        (pr.2, payloadOf ((fs pr.2).getD Entry.dir)))) := by
  intro view
  induction view with
  | nil => intro _; rfl
  | cons pr rest ih =>
    intro h
    have hsome := h pr (List.mem_cons_self _ _)
    match he : fs pr.2 with
    | none => rw [he] at hsome; simp at hsome
    | some e =>
      rw [List.map_cons, readEntry_present he]
      show collectReads (Except.ok (some (pr.2, payloadOf e)) :: _) = _
      unfold collectReads
      rw [ih (fun q hq => h q (List.mem_cons_of_mem _ hq))]
      rw [List.map_cons, he]
      rfl

theorem find?_keyed {f : List String → Option Bytes} :
    ∀ {l : List (List String × Option Bytes)},
    (∀ pr ∈ l, pr.2 = f pr.1) → ∀ {k : List String}, k ∈ l.map Prod.fst →
    (l.find? (fun pr => decide (pr.1 = k))).map Prod.snd = some (f k) := by
  intro l
  induction l with
  | nil =>
    intro _ k hk
    simp at hk
  | cons a rest ih =>
    intro h k hk
    by_cases ha : a.1 = k
    · have hfind : (a :: rest).find? (fun pr => decide (pr.1 = k)) = some a := by
        rw [List.find?_cons_of_pos]
        simp [ha]
      rw [hfind]
      show some a.2 = some (f k)
      rw [h a (List.mem_cons_self _ _), ha]
    · have hfind : (a :: rest).find? (fun pr => decide (pr.1 = k)) =
          rest.find? (fun pr => decide (pr.1 = k)) := by
        rw [List.find?_cons_of_neg]
        simp [ha]
      rw [hfind]
      have hk2 : k ∈ rest.map Prod.fst := by
        rcases List.mem_map.mp hk with ⟨q, hq, hqk⟩
        rcases List.mem_cons.mp hq with hh | ht
        · exact absurd (by rw [← hh]; exact hqk) ha
        · exact List.mem_map.mpr ⟨q, ht, hqk⟩
      exact ih (fun q hq => h q (List.mem_cons_of_mem _ hq)) hk2

theorem mapLookup_keyed {f : List String → Option Bytes}
    {l : List (List String × Option Bytes)}
    (h : ∀ pr ∈ l, pr.2 = f pr.1) {k : List String}
    (hk : k ∈ l.map Prod.fst) : mapLookup l k = some (f k) := by
  unfold mapLookup
  apply find?_keyed
  · intro pr hpr
    exact h pr (List.mem_reverse.mp hpr)
  · rw [List.map_reverse]
    exact List.mem_reverse.mpr hk

theorem backup_ok (wl : List String)
    (view : List (ManifestItem × List String)) (fs : Fs)
    (hex : ∀ pr ∈ view, (fs pr.2).isSome = true) :
    backup_alien_isolation_data wl view fs =
      Except.ok (view.map (fun pr => (pr.2, (fs pr.2).getD Entry.dir))) := by
  unfold backup_alien_isolation_data
  rw [collectReads_all_ok wl fs view hex]
  have hlook : ∀ pr ∈ view,
      mapLookup (view.map (fun pr =>
        (pr.2, payloadOf ((fs pr.2).getD Entry.dir)))) pr.2 =
      some (payloadOf ((fs pr.2).getD Entry.dir)) := by
    intro pr hpr
    have hpairs : ∀ q ∈ view.map (fun pr =>
        (pr.2, payloadOf ((fs pr.2).getD Entry.dir))),
        q.2 = (fun k => payloadOf ((fs k).getD Entry.dir)) q.1 := by
      intro q hq
      rcases List.mem_map.mp hq with ⟨r, _, hrq⟩
      rw [← hrq]
    have hkmem : pr.2 ∈ (view.map (fun pr =>
        (pr.2, payloadOf ((fs pr.2).getD Entry.dir)))).map Prod.fst := by
      rw [List.map_map]
      exact List.mem_map.mpr ⟨pr, hpr, rfl⟩
    exact @mapLookup_keyed (fun k => payloadOf ((fs k).getD Entry.dir)) _
      hpairs pr.2 hkmem
  show Except.ok _ = _
  congr 1
  have : ∀ (vs : List (ManifestItem × List String)),
      (∀ pr ∈ vs,
        mapLookup (view.map (fun pr =>
          (pr.2, payloadOf ((fs pr.2).getD Entry.dir)))) pr.2 =
        some (payloadOf ((fs pr.2).getD Entry.dir))) →
      vs.filterMap (fun pr =>
        match mapLookup (view.map (fun pr =>
          (pr.2, payloadOf ((fs pr.2).getD Entry.dir)))) pr.2 with
        | none => none
        | some none => some (pr.2, Entry.dir)
        | some (some b) => some (pr.2, Entry.file b)) =
      vs.map (fun pr => (pr.2, (fs pr.2).getD Entry.dir)) := by
    intro vs
    induction vs with
    | nil => intro _; rfl
    | cons pr rest ihv =>
      intro hv
      rw [List.filterMap_cons, hv pr (List.mem_cons_self _ _)]
      rw [ihv (fun q hq => hv q (List.mem_cons_of_mem _ hq))]
      match he : (fs pr.2).getD Entry.dir with
      | Entry.file b =>
        rw [List.map_cons, he]
        rfl
      | Entry.dir =>
        rw [List.map_cons, he]
        rfl
  exact this view hlook

/-- The manifest item a stored backup archive entry decodes back to. -/
def itemOfStored : (List String × Entry) → ManifestItem
  | (s, Entry.file b) => ⟨s, lowerPath s, b, true, false⟩
  | (s, Entry.dir) => ⟨s, lowerPath s, [], false, true⟩

theorem new_rawOfStored (pr : List String × Entry) :
    ManifestItem.new (rawOfStored pr) = some (itemOfStored pr) := by
  obtain ⟨s, e⟩ := pr
  cases e <;> rfl

theorem read_from_backup_zip_eq (arc : List (List String × Entry)) :
    read_from_backup_zip arc = arc.map itemOfStored := by
  unfold read_from_backup_zip Manifest.new
  rw [List.filterMap_map]
  have : ∀ (l : List (List String × Entry)),
      l.filterMap (ManifestItem.new ∘ rawOfStored) = l.map itemOfStored := by
    intro l
    induction l with
    | nil => rfl
    | cons pr rest ih =>
      rw [List.filterMap_cons]
      simp only [Function.comp_apply]
      rw [new_rawOfStored pr, ih, List.map_cons]
  exact this arc

theorem append_cancel {a x y : List String} (h : a ++ x = a ++ y) : x = y := by
  induction a with
  | nil => exact h
  | cons c t ih =>
    injection h with _ h2
    exact ih h2

theorem lowerPath_append (a b : List String) :
    lowerPath (a ++ b) = lowerPath a ++ lowerPath b := by
  unfold lowerPath
  rw [List.map_append]

theorem lowerPath_hans : lowerPath hans_dir = hans_dir := by decide

theorem lowerPath_strip {nm s : List String}
    (hlow : lowerPath nm = nm) (heq : nm = hans_dir ++ s) :
    lowerPath s = s := by
  rw [heq, lowerPath_append, lowerPath_hans] at hlow
  exact append_cancel hlow

/-!
## Claim theorems
-/

/-- Claim C6: for every archive, filtering the built manifest to the subtree
root returns exactly the entries whose `lowercase_name` starts with the root
prefix and whose stripped remainder is non-empty; the stripped path is the
`lowercase_name` with the prefix removed, and the root entry itself never
appears. -/
theorem c6_filter_subtree (A : List ZipEntryRaw) :
    (∀ (it : ManifestItem) (s : List String),
      ((it, s) ∈ filter_hans_dir (Manifest.new A)) ↔
        (it ∈ Manifest.new A ∧ it.lowercase_name = hans_dir ++ s ∧ s ≠ [])) ∧
    (∀ it : ManifestItem, (it, []) ∉ filter_hans_dir (Manifest.new A)) := by
  constructor
  · intro it s
    exact filter_hans_dir_mem (Manifest.new A) (it, s)
  · intro it hmem
    exact ((filter_hans_dir_mem (Manifest.new A) (it, [])).mp hmem).2.2 rfl

def zipF : ZipEntryRaw :=
  ⟨some ["language", "zh_cn_hans", "f"], true, false, some [1]⟩

def itemZF : ManifestItem :=
  ⟨["language", "zh_cn_hans", "f"], ["language", "zh_cn_hans", "f"],
    [1], true, false⟩

theorem c6_witness :
    (itemZF, ["f"]) ∈ filter_hans_dir (Manifest.new [zipF]) :=
  ((c6_filter_subtree [zipF]).1 itemZF ["f"]).mpr (by decide)

/-- Claim C9: the filtered view is a subsequence of the manifest's item
sequence - same relative order, no reordering, duplication or invention. -/
theorem c9_filter_preserves_order (m : Manifest) :
    List.Sublist ((filter_hans_dir m).map Prod.fst) m :=
  filter_hans_dir_sublist m

theorem c9_witness :
    List.Sublist ((filter_hans_dir [itemZF]).map Prod.fst) [itemZF] :=
  c9_filter_preserves_order [itemZF]

/-- Claim C7: a directory-count mismatch between the needs-remove filtered
view and the full manifest fails the restore with both counts reported,
before any deletion or write - the returned tree is the input tree. -/
theorem c7_dir_mismatch (m nr : Manifest) (fs : Fs)
    (h : countDirsView (filter_hans_dir nr) ≠ countDirs m) :
    english m nr fs =
      (Except.error (Err.dirMismatch (countDirsView (filter_hans_dir nr))
        (countDirs m)), fs) := by
  unfold english
  rw [if_pos h]

def dirItemM : ManifestItem :=
  ⟨["language", "zh_cn_hans", "d"], ["language", "zh_cn_hans", "d"],
    [], false, true⟩

def fsRootOnly : Fs := Fs.ofPairs [([], Entry.dir)]

theorem c7_witness :
    english [dirItemM] [] fsRootOnly =
      (Except.error (Err.dirMismatch 0 1), fsRootOnly) :=
  c7_dir_mismatch [dirItemM] [] fsRootOnly (by decide)

/-- Claim C10: the removal phase of the restore never removes a directory;
a path changes only if some file-flagged entry of the view targets it and it
currently exists as a regular file, and then it is deleted. -/
theorem c10_removal_only_files (view : List (ManifestItem × List String))
    (fs : Fs) :
    (∀ p, fs p = some Entry.dir → removal view fs p = some Entry.dir) ∧
    (∀ p, removal view fs p ≠ fs p →
      removal view fs p = none ∧
      (∃ pr ∈ view, pr.1.is_file = true ∧ pr.2 = p) ∧
      (∃ b, fs p = some (Entry.file b))) := by
  constructor
  · intro p hdir
    rw [removal_apply]
    rw [if_neg]
    · exact hdir
    · rintro ⟨_, hfo⟩
      rw [hdir] at hfo
      simp [isFileO] at hfo
  · intro p hchange
    rw [removal_apply] at hchange ⊢
    by_cases hc : (∃ pr ∈ view, pr.1.is_file = true ∧ pr.2 = p) ∧
        isFileO (fs p) = true
    · rw [if_pos hc]
      refine ⟨rfl, hc.1, ?_⟩
      have := hc.2
      match hfs : fs p with
      | some (Entry.file b) => exact ⟨b, rfl⟩
      | some Entry.dir => rw [hfs] at this; simp [isFileO] at this
      | none => rw [hfs] at this; simp [isFileO] at this
    · rw [if_neg hc] at hchange
      exact absurd rfl hchange

def fsFD : Fs :=
  Fs.ofPairs [([], Entry.dir), (["f"], Entry.file [9]), (["d"], Entry.dir)]

theorem c10_witness :
    removal [(itemZF, ["f"])] fsFD ["d"] = some Entry.dir :=
  (c10_removal_only_files [(itemZF, ["f"])] fsFD).1 ["d"] (by decide)

def dirItemD : ManifestItem := ⟨["d"], ["d"], [], false, true⟩

/-- Claim C2 counterexample: a directory item whose target path does not
exist is NOT created - the write routine returns successfully leaving the
tree unchanged, because directory creation only runs when the path already
exists. -/
theorem c2_counterexample :
    write_file dirItemD ["d"] fsRootOnly = Except.ok fsRootOnly ∧
    fsRootOnly ["d"] = none := ⟨rfl, rfl⟩

/-- Claim C2 (amended): for a directory item, the write routine creates
nothing when the target path is absent, and leaves an existing directory
(with directory ancestors) as is. -/
theorem c2_amended (item : ManifestItem) (p : List String) (fs : Fs)
    (hfile : item.is_file = false) :
    (fs p = none → write_file item p fs = Except.ok fs) ∧
    (chainDirs fs p → write_file item p fs = Except.ok fs) :=
  ⟨fun h => write_file_dir_skip hfile h, fun h => write_file_dir_ok hfile h⟩

theorem c2_witness :
    write_file dirItemD ["d"] fsRootOnly = Except.ok fsRootOnly :=
  (c2_amended dirItemD ["d"] fsRootOnly rfl).1 rfl

def symlinkEntry : ZipEntryRaw := ⟨some ["sym"], false, false, some []⟩

/-- Claim C8 counterexample: an archive entry that is neither a file nor a
directory (both kind flags false, e.g. a symlink) is NOT dropped during
construction - it appears as a manifest item with both flags false. -/
theorem c8_counterexample :
    (Manifest.new [symlinkEntry]).length = 1 ∧
    ∀ it ∈ Manifest.new [symlinkEntry],
      it.is_file = false ∧ it.is_dir = false := by decide

/-- Claim C8 (amended): construction drops exactly the entries with no safe
enclosed name or unreadable bytes; the two kind flags are copied unchanged,
so an entry that is neither file nor directory is kept with both flags
false. -/
theorem c8_amended (e : ZipEntryRaw) :
    ((ManifestItem.new e).isSome = true ↔
      e.enclosedName.isSome = true ∧ e.bytesRead.isSome = true) ∧
    (∀ it, ManifestItem.new e = some it →
      it.is_file = e.isFileFlag ∧ it.is_dir = e.isDirFlag) := by
  obtain ⟨en, ff, fd, br⟩ := e
  cases en with
  | none =>
    constructor
    · simp [ManifestItem.new]
    · intro it h
      simp [ManifestItem.new] at h
  | some p =>
    cases br with
    | none =>
      constructor
      · simp [ManifestItem.new]
      · intro it h
        simp [ManifestItem.new] at h
    | some b =>
      constructor
      · simp [ManifestItem.new]
      · intro it h
        simp only [ManifestItem.new, Option.bind_some] at h
        injection h with h
        rw [← h]
        exact ⟨rfl, rfl⟩

theorem c8_witness :
    (ManifestItem.new symlinkEntry).isSome = true ∧
    (∀ it, ManifestItem.new symlinkEntry = some it →
      it.is_file = false ∧ it.is_dir = false) :=
  ⟨(c8_amended symlinkEntry).1.mpr (by decide),
   fun it h => (c8_amended symlinkEntry).2 it h⟩

theorem fs_none_of_not_isSome {fs : Fs} {p : List String}
    (h : ¬(fs p).isSome = true) : fs p = none := by
  match hfs : fs p with
  | none => rfl
  | some e => rw [hfs] at h; simp at h

theorem mem_notFoundList {wl : List String} {fs : Fs}
    {view : List (ManifestItem × List String)} {s : List String} :
    s ∈ notFoundList wl fs view ↔
      ∃ it, (it, s) ∈ view ∧ s ≠ [] ∧ fs s = none ∧
        wl.contains (display s) = false := by
  unfold notFoundList
  rw [List.mem_filterMap]
  constructor
  · rintro ⟨pr, hpr, hif⟩
    by_cases hc : (!pr.2.isEmpty && !tryExists fs pr.2 &&
        !wl.contains (display pr.2)) = true
    · rw [if_pos hc] at hif
      injection hif with hif
      subst hif
      simp only [Bool.and_eq_true, Bool.not_eq_true'] at hc
      obtain ⟨⟨h1, h2⟩, h3⟩ := hc
      refine ⟨pr.1, hpr, isEmpty_false_iff.mp h1, ?_, h3⟩
      unfold tryExists at h2
      exact fs_none_of_not_isSome (by rw [h2]; simp)
    · rw [if_neg hc] at hif
      exact absurd hif (by simp)
  · rintro ⟨it, hmem, hne, hnone, hcont⟩
    have hc : (!s.isEmpty && !tryExists fs s && !wl.contains (display s)) =
        true := by
      have h1 : s.isEmpty = false := isEmpty_false_iff.mpr hne
      have h2 : tryExists fs s = false := by
        unfold tryExists; rw [hnone]; rfl
      rw [h1, h2, hcont]
      rfl
    refine ⟨(it, s), hmem, ?_⟩
    rw [if_pos hc]

/-- Claim C5: the integrity check fails for an entry of the filtered view iff
its path does not exist on disk and its display string is not whitelisted;
all failing entries are aggregated into one error naming exactly the missing
paths, and the check succeeds iff no entry fails. -/
theorem c5_check_characterization (wl : List String) (fs : Fs)
    (view : List (ManifestItem × List String))
    (hne : ∀ pr ∈ view, pr.2 ≠ []) :
    (check_manifest_for_game_data wl fs view = Except.ok () ↔
      ∀ pr ∈ view, (fs pr.2).isSome = true ∨
        wl.contains (display pr.2) = true) ∧
    (∀ l s, check_manifest_for_game_data wl fs view =
        Except.error (Err.missingBaseline l) →
      (s ∈ l ↔ ∃ it, (it, s) ∈ view ∧ fs s = none ∧
        wl.contains (display s) = false)) := by
  constructor
  · constructor
    · intro hok pr hpr
      by_contra hcon
      push_neg at hcon
      have hmem : pr.2 ∈ notFoundList wl fs view :=
        mem_notFoundList.mpr ⟨pr.1, hpr, hne pr hpr,
          fs_none_of_not_isSome hcon.1,
          by
            cases hc : wl.contains (display pr.2)
            · rfl
            · exact absurd hc hcon.2⟩
      have hnonempty : (notFoundList wl fs view).isEmpty = false := by
        cases hl : notFoundList wl fs view
        · rw [hl] at hmem; simp at hmem
        · rfl
      unfold check_manifest_for_game_data at hok
      rw [if_neg (by rw [hnonempty]; simp)] at hok
      exact absurd hok (by simp)
    · intro hall
      apply check_eq_ok
      unfold notFoundList
      rw [List.filterMap_eq_nil]
      intro pr hpr
      rw [if_neg]
      intro hcond
      simp only [Bool.and_eq_true, Bool.not_eq_true'] at hcond
      rcases hall pr hpr with hs | hw
      · have htr : tryExists fs pr.2 = true := hs
        rw [htr] at hcond
        exact absurd hcond.1.2 (by simp)
      · rw [hw] at hcond
        exact absurd hcond.2 (by simp)
  · intro l s herr
    unfold check_manifest_for_game_data at herr
    by_cases hemp : (notFoundList wl fs view).isEmpty = true
    · rw [if_pos hemp] at herr
      exact absurd herr (by simp)
    · rw [if_neg hemp] at herr
      injection herr with herr
      injection herr with herr
      rw [← herr]
      rw [mem_notFoundList]
      constructor
      · rintro ⟨it, hmem, _, hnone, hcont⟩
        exact ⟨it, hmem, hnone, hcont⟩
      · rintro ⟨it, hmem, hnone, hcont⟩
        exact ⟨it, hmem, hne (it, s) hmem, hnone, hcont⟩

def fsOnlyRootF : Fs := Fs.ofPairs [([], Entry.dir), (["f"], Entry.file [9])]

theorem c5_witness :
    check_manifest_for_game_data [] fsOnlyRootF [(itemZF, ["f"])] =
      Except.ok () :=
  ((c5_check_characterization [] fsOnlyRootF [(itemZF, ["f"])]
    (by decide)).1).mpr (by decide)

/-- The backup reads that fail: the paths that are absent on disk and whose
display string is not whitelisted, in view order. -/
def failingPaths (wl : List String) (fs : Fs)
    (view : List (ManifestItem × List String)) : List (List String) :=
  view.filterMap (fun pr =>
    if (fs pr.2).isNone && !wl.contains (display pr.2) then some pr.2
    else none)

theorem collectReads_first_fail (wl : List String) (fs : Fs) :
    ∀ (view : List (ManifestItem × List String)),
    (∀ s rest, failingPaths wl fs view = s :: rest →
      collectReads (view.map (fun pr => readEntry wl fs pr.2)) =
        Except.error (Err.backupRead s)) ∧
    (failingPaths wl fs view = [] →
      ∃ bufs, collectReads (view.map (fun pr => readEntry wl fs pr.2)) =
        Except.ok bufs) := by
  intro view
  induction view with
  | nil =>
    constructor
    · intro s rest h
      exact absurd h (by simp [failingPaths])
    · intro _
      exact ⟨[], rfl⟩
  | cons pr rest ih =>
    have hfp : failingPaths wl fs (pr :: rest) =
        (if (fs pr.2).isNone && !wl.contains (display pr.2) then some pr.2
         else none).toList ++ failingPaths wl fs rest := by
      unfold failingPaths
      rw [List.filterMap_cons]
      cases hc : (if (fs pr.2).isNone && !wl.contains (display pr.2)
          then some pr.2 else none) with
      | none => rfl
      | some x => rfl
    by_cases hfail : ((fs pr.2).isNone && !wl.contains (display pr.2)) = true
    · have hnone : fs pr.2 = none := by
        have := hfail
        simp only [Bool.and_eq_true] at this
        exact Option.isNone_iff_eq_none.mp this.1
      have hcont : wl.contains (display pr.2) = false := by
        have := hfail
        simp only [Bool.and_eq_true, Bool.not_eq_true'] at this
        exact this.2
      have hread : readEntry wl fs pr.2 = Except.error (.backupRead pr.2) := by
        unfold readEntry
        rw [hnone, hcont]
        rfl
      constructor
      · intro s rest2 h
        rw [hfp, if_pos hfail] at h
        injection h with h1 _
        rw [List.map_cons, hread]
        show Except.error (Err.backupRead pr.2) = _
        rw [h1]
      · intro h
        rw [hfp, if_pos hfail] at h
        exact absurd h (by simp)
    · have hok : ∃ v, readEntry wl fs pr.2 = Except.ok v := by
        unfold readEntry
        match hfs : fs pr.2 with
        | some (Entry.file b) => exact ⟨_, rfl⟩
        | some Entry.dir => exact ⟨_, rfl⟩
        | none =>
          have hcont : wl.contains (display pr.2) = true := by
            cases hc : wl.contains (display pr.2)
            · exact absurd (by rw [hfs, hc]; rfl) hfail
            · rfl
          rw [hcont]
          exact ⟨_, rfl⟩
      obtain ⟨v, hv⟩ := hok
      have hfp2 : failingPaths wl fs (pr :: rest) = failingPaths wl fs rest := by
        rw [hfp, if_neg hfail]
        rfl
      constructor
      · intro s rest2 h
        rw [hfp2] at h
        rw [List.map_cons, hv]
        cases v with
        | none =>
          show collectReads (rest.map _) = _
          exact (ih.1) s rest2 h
        | some pr2 =>
          show (collectReads (rest.map _)).map _ = _
          rw [(ih.1) s rest2 h]
          rfl
      · intro h
        rw [hfp2] at h
        obtain ⟨bufs, hbufs⟩ := (ih.2) h
        rw [List.map_cons, hv]
        cases v with
        | none =>
          exact ⟨bufs, hbufs⟩
        | some pr2 =>
          refine ⟨pr2 :: bufs, ?_⟩
          show (collectReads (rest.map _)).map _ = _
          rw [hbufs]
          rfl

def itemZA : ManifestItem :=
  ⟨["language", "zh_cn_hans", "a"], ["language", "zh_cn_hans", "a"],
    [], true, false⟩

def itemZB : ManifestItem :=
  ⟨["language", "zh_cn_hans", "b"], ["language", "zh_cn_hans", "b"],
    [], true, false⟩

def viewAB : List (ManifestItem × List String) :=
  [(itemZA, ["a"]), (itemZB, ["b"])]

/-- Claim C4 counterexample: with two entries both absent and not
whitelisted, the backup-read phase reports only the first failing path, not
an aggregate of both. -/
theorem c4_counterexample :
    backup_alien_isolation_data [] viewAB fsRootOnly =
      Except.error (Err.backupRead ["a"]) ∧
    fsRootOnly ["b"] = none ∧
    ([] : List String).contains (display ["b"]) = false ∧
    ["b"] ≠ ["a"] := by
  refine ⟨rfl, rfl, rfl, by decide⟩

/-- Claim C4 (amended): the backup-read phase runs every per-entry read but
short-circuits its reporting to the first failing entry in view order; it
aggregates nothing (only the integrity check does). -/
theorem c4_first_error (wl : List String) (fs : Fs)
    (view : List (ManifestItem × List String)) :
    (∀ s rest, failingPaths wl fs view = s :: rest →
      backup_alien_isolation_data wl view fs =
        Except.error (Err.backupRead s)) ∧
    (failingPaths wl fs view = [] →
      ∃ arc, backup_alien_isolation_data wl view fs = Except.ok arc) := by
  constructor
  · intro s rest h
    unfold backup_alien_isolation_data
    rw [(collectReads_first_fail wl fs view).1 s rest h]
  · intro h
    obtain ⟨bufs, hbufs⟩ := (collectReads_first_fail wl fs view).2 h
    unfold backup_alien_isolation_data
    rw [hbufs]
    exact ⟨_, rfl⟩

theorem c4_witness :
    failingPaths [] fsRootOnly viewAB = [["a"], ["b"]] ∧
    backup_alien_isolation_data [] viewAB fsRootOnly =
      Except.error (Err.backupRead ["a"]) :=
  ⟨by decide, (c4_first_error [] fsRootOnly viewAB).1 ["a"] [["b"]] (by decide)⟩

theorem lastFileWrite_isSome {view : List (ManifestItem × List String)}
    {p : List String}
    (h : ∃ pr ∈ view, pr.1.is_file = true ∧ pr.2 = p) :
    (lastFileWrite view p).isSome = true := by
  unfold lastFileWrite
  obtain ⟨pr0, hpr0, hf0, hp0⟩ := h
  match hfind : view.reverse.find?
      (fun pr => pr.1.is_file && decide (pr.2 = p)) with
  | some q =>
    rw [hfind]
    rfl
  | none =>
    exfalso
    have hnone := List.find?_eq_none.mp hfind pr0 (List.mem_reverse.mpr hpr0)
    rw [hf0, hp0] at hnone
    simp at hnone

theorem lastFileWrite_const {view : List (ManifestItem × List String)}
    {p : List String} {b : Bytes}
    (hex : ∃ pr ∈ view, pr.1.is_file = true ∧ pr.2 = p)
    (hall : ∀ pr ∈ view, pr.1.is_file = true → pr.2 = p → pr.1.bytes = b) :
    lastFileWrite view p = some b := by
  unfold lastFileWrite
  match hfind : view.reverse.find?
      (fun pr => pr.1.is_file && decide (pr.2 = p)) with
  | none =>
    exfalso
    obtain ⟨pr0, hpr0, hf0, hp0⟩ := hex
    have hnone := List.find?_eq_none.mp hfind pr0 (List.mem_reverse.mpr hpr0)
    rw [hf0, hp0] at hnone
    simp at hnone
  | some q =>
    rw [hfind]
    have hq := List.find?_some hfind
    have hqmem := List.mem_reverse.mp (List.mem_of_find?_eq_some hfind)
    simp only [Bool.and_eq_true, decide_eq_true_eq] at hq
    show some q.1.bytes = some b
    rw [hall q hqmem hq.1 hq.2]

/-- Writing the reloaded entries of a stored archive with pairwise distinct
names puts every stored entry back at its name. -/
theorem foldSet_stored_nodup :
    ∀ (l : List (List String × Entry)) (g : Fs),
    (l.map Prod.fst).Nodup →
    (∀ pr ∈ l, pr.2 = Entry.dir → g pr.1 = some Entry.dir) →
    ∀ pr ∈ l,
      foldSet (l.map (fun q => (itemOfStored q, q.1))) g pr.1 = some pr.2 := by
  intro l
  induction l with
  | nil =>
    intro g _ _ pr hpr
    simp at hpr
  | cons a rest ih =>
    intro g hnd hdir pr hpr
    obtain ⟨s, e⟩ := a
    have hnotin : s ∉ rest.map Prod.fst := by
      rw [List.map_cons, List.nodup_cons] at hnd
      exact hnd.1
    have hndrest : (rest.map Prod.fst).Nodup := by
      rw [List.map_cons, List.nodup_cons] at hnd
      exact hnd.2
    rw [List.map_cons, foldSet_cons]
    rcases List.mem_cons.mp hpr with hh | ht
    · subst hh
      have hnowrite :
          lastFileWrite (rest.map (fun q => (itemOfStored q, q.1))) s =
            none := by
        apply lastFileWrite_eq_none
        intro er her _
        rcases List.mem_map.mp her with ⟨q, hq, hqe⟩
        rw [← hqe]
        show q.1 ≠ s
        intro hc
        exact hnotin (List.mem_map.mpr ⟨q, hq, hc⟩)
      cases e with
      | file b =>
        rw [foldSet_apply, hnowrite]
        show (g.set s (Entry.file b)) s = some (Entry.file b)
        rw [Fs.set_apply, if_pos rfl]
      | dir =>
        rw [foldSet_apply, hnowrite]
        show g s = some Entry.dir
        exact hdir (s, Entry.dir) (List.mem_cons_self _ _) rfl
    · apply ih _ hndrest _ pr ht
      intro qr hqr hqd
      have hqs : qr.1 ≠ s := by
        intro hc
        exact hnotin (List.mem_map.mpr ⟨qr, hqr, hc⟩)
      have hold := hdir qr (List.mem_cons_of_mem _ hqr) hqd
      cases e with
      | file b =>
        show (g.set s (Entry.file b)) qr.1 = some Entry.dir
        rw [Fs.set_apply, if_neg hqs]
        exact hold
      | dir =>
        show g qr.1 = some Entry.dir
        exact hold

/-- Rewriting the reloaded backup archive targets exactly the stored entry
names, when those names are already case-folded. -/
theorem view_rewrite_eq (barc : List (List String × Entry))
    (hlow : ∀ pr ∈ barc, lowerPath pr.1 = pr.1) :
    (read_from_backup_zip barc).map (fun it => (it, it.lowercase_name)) =
      barc.map (fun q => (itemOfStored q, q.1)) := by
  rw [read_from_backup_zip_eq, List.map_map]
  apply List.map_congr_left
  intro q hq
  simp only [Function.comp_apply]
  have hl : (itemOfStored q).lowercase_name = q.1 := by
    obtain ⟨s, e⟩ := q
    cases e with
    | file b => exact hlow (s, Entry.file b) hq
    | dir => exact hlow (s, Entry.dir) hq
  rw [hl]

theorem length_filter_map_eq {α β : Type} (l : List α) (f : α → β)
    (p : β → Bool) (q : α → Bool) (h : ∀ a ∈ l, p (f a) = q a) :
    ((l.map f).filter p).length = (l.filter q).length := by
  induction l with
  | nil => rfl
  | cons a rest ih =>
    rw [List.map_cons, List.filter_cons, List.filter_cons,
      h a (List.mem_cons_self _ _)]
    cases hq : q a with
    | true =>
      rw [if_pos rfl, if_pos rfl, List.length_cons, List.length_cons,
        ih (fun x hx => h x (List.mem_cons_of_mem _ hx))]
    | false =>
      rw [if_neg (by simp), if_neg (by simp),
        ih (fun x hx => h x (List.mem_cons_of_mem _ hx))]

def itemZF1 : ManifestItem :=
  ⟨["language", "zh_cn_hans", "f"], ["language", "zh_cn_hans", "f"],
    [1], true, false⟩

def embedded1 : Manifest := [itemZF1]

def barc1 : List (List String × Entry) := [(["f"], Entry.file [2])]

def fsF1 : Fs := Fs.ofPairs [([], Entry.dir), (["f"], Entry.file [9])]

/-- Claim C1 counterexample: the restore wiring of `main` succeeds on an
input where the flow the spec describes (backup reloaded as needs-remove,
embedded manifest rewritten) fails - the two manifests play the opposite
roles, so the claimed flow is not the implemented one. -/
theorem c1_counterexample :
    (mainEnglish embedded1 barc1 fsF1).1 = Except.ok () ∧
    (englishPerSpec embedded1 barc1 fsF1).1 =
      Except.error (Err.openFailed ["language", "zh_cn_hans", "f"]) :=
  ⟨rfl, rfl⟩

/-- Claim C1 (amended): in the restore flow the freshly read embedded
manifest is the needs-remove manifest (its language-subtree file entries are
deleted), and the rewrite phase writes every item of the reloaded backup
archive back onto disk: after a successful restore every stored backup entry
sits at its own name, and every filtered embedded file path not covered by
the backup is gone. -/
theorem c1_restore_roles (e : Manifest) (barc : List (List String × Entry))
    (fs : Fs)
    (hlow : ∀ pr ∈ barc, lowerPath pr.1 = pr.1)
    (hnd : (barc.map Prod.fst).Nodup)
    (hc : countDirsView (filter_hans_dir e) =
      countDirs (read_from_backup_zip barc))
    (hw : writableView (removal (filter_hans_dir e) fs)
      ((read_from_backup_zip barc).map (fun it => (it, it.lowercase_name)))) :
    (mainEnglish e barc fs).1 = Except.ok () ∧
    (∀ pr ∈ barc, (mainEnglish e barc fs).2 pr.1 = some pr.2) ∧
    (∀ pr ∈ filter_hans_dir e, ∀ b, pr.1.is_file = true →
      fs pr.2 = some (Entry.file b) → pr.2 ∉ barc.map Prod.fst →
      (mainEnglish e barc fs).2 pr.2 = none) := by
  have hview := view_rewrite_eq barc hlow
  have hme : mainEnglish e barc fs =
      (Except.ok (),
        foldSet ((read_from_backup_zip barc).map
          (fun it => (it, it.lowercase_name)))
          (removal (filter_hans_dir e) fs)) :=
    english_ok (read_from_backup_zip barc) e fs hc hw
  rw [hme]
  refine ⟨rfl, ?_, ?_⟩
  · intro pr hpr
    show foldSet _ _ pr.1 = some pr.2
    rw [hview]
    apply foldSet_stored_nodup barc _ hnd _ pr hpr
    intro qr hqr hqd
    -- the dir-chain hypothesis of hw gives the removal image at qr.1
    have hmem : (itemOfStored qr, qr.1) ∈
        (read_from_backup_zip barc).map (fun it => (it, it.lowercase_name)) := by
      rw [hview]
      exact List.mem_map.mpr ⟨qr, hqr, rfl⟩
    have hqf : (itemOfStored qr).is_file = false := by
      obtain ⟨s, e2⟩ := qr
      cases e2 with
      | file b =>
        exact absurd hqd (by simp)
      | dir => rfl
    have := hw.2.1 (itemOfStored qr, qr.1) hmem hqf
    exact this qr.1 (self_mem_inits _)
  · intro pr hpr b hf hb hnotin
    show foldSet _ _ pr.2 = none
    rw [hview]
    have hnw : lastFileWrite (barc.map (fun q => (itemOfStored q, q.1)))
        pr.2 = none := by
      apply lastFileWrite_eq_none
      intro er her _
      rcases List.mem_map.mp her with ⟨q, hq, hqe⟩
      rw [← hqe]
      show q.1 ≠ pr.2
      intro hc2
      exact hnotin (List.mem_map.mpr ⟨q, hq, hc2⟩)
    rw [foldSet_apply, hnw, removal_apply]
    rw [if_pos]
    exact ⟨⟨pr, hpr, hf, rfl⟩, by rw [hb]; rfl⟩

theorem c1_witness :
    (mainEnglish embedded1 barc1 fsF1).1 = Except.ok () ∧
    (∀ pr ∈ barc1, (mainEnglish embedded1 barc1 fsF1).2 pr.1 = some pr.2) ∧
    (∀ pr ∈ filter_hans_dir embedded1, ∀ b, pr.1.is_file = true →
      fsF1 pr.2 = some (Entry.file b) → pr.2 ∉ barc1.map Prod.fst →
      (mainEnglish embedded1 barc1 fsF1).2 pr.2 = none) :=
  c1_restore_roles embedded1 barc1 fsF1 (by decide) (by decide) (by decide)
    (by simp only [writableView, chainDirs]; decide)

theorem mainChinese_ok {wl : List String} {m : Manifest} {fs : Fs}
    {arc : List (List String × Entry)} {fs1 : Fs}
    (h1 : check_manifest_for_game_data wl fs (filter_hans_dir m) =
      Except.ok ())
    (h2 : backup_alien_isolation_data wl (filter_hans_dir m) fs =
      Except.ok arc)
    (h3 : chinese (filter_hans_dir m) fs = (Except.ok (), fs1)) :
    mainChinese wl m fs = Except.ok (arc, fs1) := by
  unfold mainChinese
  dsimp only
  rw [h1, h2, h3]

theorem overlayThenRestore_ok {wl : List String} {m : Manifest} {fs : Fs}
    {arc : List (List String × Entry)} {fs1 fs2 : Fs}
    (h1 : mainChinese wl m fs = Except.ok (arc, fs1))
    (h2 : mainEnglish m arc fs1 = (Except.ok (), fs2)) :
    overlayThenRestore wl m fs = Except.ok fs2 := by
  unfold overlayThenRestore
  rw [h1]
  show (match mainEnglish m arc fs1 with
    | (Except.ok _, fs3) => Except.ok fs3
    | (Except.error e, _) => Except.error e) = Except.ok fs2
  rw [h2]

/-- Disk kind matches the manifest flag for one filtered entry. -/
def kindOk (fs : Fs) (pr : ManifestItem × List String) : Bool :=
  match fs pr.2 with
  | some (Entry.file _) => pr.1.is_file
  | some Entry.dir => !pr.1.is_file
  | none => false

def mCE : Manifest :=
  [⟨["language", "zh_cn_hans", "wd"], ["language", "zh_cn_hans", "wd"],
      [], false, true⟩,
   ⟨["language", "zh_cn_hans", "f"], ["language", "zh_cn_hans", "f"],
      [1], true, false⟩]

def wlCE : List String := ["wd"]

def fsCE : Fs := Fs.ofPairs [([], Entry.dir), (["f"], Entry.file [9])]

/-- Claim C3 counterexample: a state that passes the integrity check (the
directory entry `wd` is absent but whitelisted) is overlaid successfully,
but the subsequent restore aborts at the directory-count validation and the
overlaid bytes at `f` are never restored - the round trip does not
reproduce the original state. -/
theorem c3_counterexample :
    check_manifest_for_game_data wlCE fsCE (filter_hans_dir mCE) =
      Except.ok () ∧
    (mainChinese wlCE mCE fsCE).map (fun pr => pr.2 ["f"]) =
      Except.ok (some (Entry.file [1])) ∧
    fsCE ["f"] = some (Entry.file [9]) ∧
    overlayThenRestore wlCE mCE fsCE =
      Except.error (Err.dirMismatch 1 0) :=
  ⟨rfl, rfl, rfl, rfl⟩

/-- Claim C3 (amended): for every ancestor-well-formed original state in
which every entry of the filtered language subtree exists on disk with the
kind matching its manifest flag (such a state passes the integrity check
automatically), and whose manifest has exclusive kind flags and case-folded
names, overlay (check, backup, write) followed by restore reproduces the
original state exactly. -/
theorem c3_roundtrip (wl : List String) (m : Manifest) (fs : Fs)
    (hwf : WF fs)
    (hflag : ∀ it ∈ m, it.is_dir = !it.is_file)
    (hlow : ∀ it ∈ m, lowerPath it.lowercase_name = it.lowercase_name)
    (hkind : ∀ pr ∈ filter_hans_dir m, kindOk fs pr = true) :
    overlayThenRestore wl m fs = Except.ok fs := by
  obtain ⟨hroot, hanc⟩ := hwf
  have hmemF := fun pr (hpr : pr ∈ filter_hans_dir m) =>
    (filter_hans_dir_mem m pr).mp hpr
  have hexF : ∀ pr ∈ filter_hans_dir m, (fs pr.2).isSome = true := by
    intro pr hpr
    have hk := hkind pr hpr
    unfold kindOk at hk
    match hfs : fs pr.2 with
    | some e => rfl
    | none => rw [hfs] at hk; exact absurd hk (by simp)
  have hfileF : ∀ pr ∈ filter_hans_dir m, pr.1.is_file = true →
      ∃ b, fs pr.2 = some (Entry.file b) := by
    intro pr hpr hf
    have hk := hkind pr hpr
    unfold kindOk at hk
    match hfs : fs pr.2 with
    | some (Entry.file b) => exact ⟨b, rfl⟩
    | some Entry.dir =>
      rw [hfs] at hk
      rw [hf] at hk
      exact absurd hk (by simp)
    | none =>
      rw [hfs] at hk
      exact absurd hk (by simp)
  have hdirF : ∀ pr ∈ filter_hans_dir m, pr.1.is_file = false →
      fs pr.2 = some Entry.dir := by
    intro pr hpr hf
    have hk := hkind pr hpr
    unfold kindOk at hk
    match hfs : fs pr.2 with
    | some (Entry.file b) =>
      rw [hfs] at hk
      rw [hf] at hk
      exact absurd hk (by simp)
    | some Entry.dir => rfl
    | none =>
      rw [hfs] at hk
      exact absurd hk (by simp)
  have hchain_strict : ∀ pr ∈ filter_hans_dir m, ∀ q,
      q.isPrefixOf pr.2 = true → q ≠ pr.2 → fs q = some Entry.dir :=
    fun pr hpr q hq hne => hanc pr.2 q (hexF pr hpr) hq hne
  have hlowS : ∀ pr ∈ filter_hans_dir m, lowerPath pr.2 = pr.2 := by
    intro pr hpr
    exact lowerPath_strip (hlow pr.1 (hmemF pr hpr).1) (hmemF pr hpr).2.1
  have hsep : ∀ pr ∈ filter_hans_dir m, pr.1.is_file = true →
      ∀ qr ∈ filter_hans_dir m,
      (qr.1.is_file = true → pr.2.isPrefixOf qr.2 = true → pr.2 = qr.2) ∧
      (qr.1.is_file = false → pr.2.isPrefixOf qr.2 = false) := by
    intro pr hpr hf qr hqr
    obtain ⟨b, hb⟩ := hfileF pr hpr hf
    constructor
    · intro _ hipo
      by_contra hne
      have hd := hchain_strict qr hqr pr.2 hipo hne
      rw [hb] at hd
      exact absurd hd (by simp)
    · intro hqf
      cases hipo : pr.2.isPrefixOf qr.2 with
      | false => rfl
      | true =>
        exfalso
        by_cases heq : pr.2 = qr.2
        · have hd := hdirF qr hqr hqf
          rw [← heq, hb] at hd
          exact absurd hd (by simp)
        · have hd := hchain_strict qr hqr pr.2 hipo heq
          rw [hb] at hd
          exact absurd hd (by simp)
  have hwv1 : writableView fs (filter_hans_dir m) := by
    refine ⟨?_, ?_, hsep⟩
    · intro pr hpr hf
      obtain ⟨b, hb⟩ := hfileF pr hpr hf
      refine ⟨(hmemF pr hpr).2.2, ?_, ?_⟩
      · intro q hq
        have hqi := mem_inits_ipo hq
        have hipo : q.isPrefixOf pr.2 = true := ipo_trans hqi (dropLast_ipo _)
        have hne2 : q ≠ pr.2 := by
          intro hc
          have hlt := dropLast_length_lt (hmemF pr hpr).2.2
          have hle := ipo_length hqi
          rw [hc] at hle
          omega
        exact hchain_strict pr hpr q hipo hne2
      · rw [hb]
        simp
    · intro pr hpr hf
      intro q hq
      have hqi := mem_inits_ipo hq
      by_cases heq : q = pr.2
      · rw [heq]
        exact hdirF pr hpr hf
      · exact hchain_strict pr hpr q hqi heq
  have hcheck : check_manifest_for_game_data wl fs (filter_hans_dir m) =
      Except.ok () := check_eq_ok (notFoundList_eq_nil hexF)
  have hbackup := backup_ok wl (filter_hans_dir m) fs hexF
  have hchin : chinese (filter_hans_dir m) fs =
      (Except.ok (), foldSet (filter_hans_dir m) fs) :=
    writeAll_ok (filter_hans_dir m) fs hwv1
  have hmc := mainChinese_ok hcheck hbackup hchin
  have hfs1_nofile : ∀ p,
      (¬∃ pr ∈ filter_hans_dir m, pr.1.is_file = true ∧ pr.2 = p) →
      foldSet (filter_hans_dir m) fs p = fs p := by
    intro p hnp
    have hnone : lastFileWrite (filter_hans_dir m) p = none :=
      lastFileWrite_eq_none (fun pr hpr hf hc => hnp ⟨pr, hpr, hf, hc⟩)
    rw [foldSet_apply, hnone]
  have hfs1_file : ∀ p,
      (∃ pr ∈ filter_hans_dir m, pr.1.is_file = true ∧ pr.2 = p) →
      isFileO (foldSet (filter_hans_dir m) fs p) = true := by
    intro p hp
    rw [foldSet_apply]
    match hlw : lastFileWrite (filter_hans_dir m) p with
    | some b => rfl
    | none =>
      exfalso
      have hs := lastFileWrite_isSome hp
      rw [hlw] at hs
      simp at hs
  have hg2 : ∀ p,
      removal (filter_hans_dir m) (foldSet (filter_hans_dir m) fs) p =
      if ∃ pr ∈ filter_hans_dir m, pr.1.is_file = true ∧ pr.2 = p
      then none else fs p := by
    intro p
    rw [removal_apply]
    by_cases hp : ∃ pr ∈ filter_hans_dir m, pr.1.is_file = true ∧ pr.2 = p
    · rw [if_pos ⟨hp, hfs1_file p hp⟩, if_pos hp]
    · rw [if_neg (fun hc => hp hc.1), if_neg hp]
      exact hfs1_nofile p hp
  have hg2_dirs : ∀ q, fs q = some Entry.dir →
      removal (filter_hans_dir m) (foldSet (filter_hans_dir m) fs) q =
        some Entry.dir := by
    intro q hq
    rw [hg2 q, if_neg]
    · exact hq
    · rintro ⟨qr, hqr, hqf, hqp⟩
      obtain ⟨b, hb⟩ := hfileF qr hqr hqf
      rw [hqp] at hb
      rw [hq] at hb
      exact absurd hb (by simp)
  have hlowArc : ∀ q ∈ (filter_hans_dir m).map
      (fun pr => (pr.2, (fs pr.2).getD Entry.dir)), lowerPath q.1 = q.1 := by
    intro q hq
    rcases List.mem_map.mp hq with ⟨pr, hpr, hqe⟩
    rw [← hqe]
    exact hlowS pr hpr
  have hview := view_rewrite_eq _ hlowArc
  have hviewF : (((filter_hans_dir m).map
      (fun pr => (pr.2, (fs pr.2).getD Entry.dir))).map
        (fun q => (itemOfStored q, q.1))) =
      (filter_hans_dir m).map (fun pr =>
        (itemOfStored (pr.2, (fs pr.2).getD Entry.dir), pr.2)) := by
    rw [List.map_map]
    apply List.map_congr_left
    intro pr _
    rfl
  have hitem_isfile : ∀ pr ∈ filter_hans_dir m,
      (itemOfStored (pr.2, (fs pr.2).getD Entry.dir)).is_file =
        pr.1.is_file := by
    intro pr hpr
    by_cases hf : pr.1.is_file = true
    · obtain ⟨b, hb⟩ := hfileF pr hpr hf
      rw [hb, hf]
      rfl
    · have hf0 : pr.1.is_file = false := by
        cases h2 : pr.1.is_file
        · rfl
        · exact absurd h2 hf
      rw [hdirF pr hpr hf0, hf0]
      rfl
  have hcount : countDirsView (filter_hans_dir m) =
      countDirs (read_from_backup_zip ((filter_hans_dir m).map
        (fun pr => (pr.2, (fs pr.2).getD Entry.dir)))) := by
    rw [read_from_backup_zip_eq]
    unfold countDirs countDirsView
    rw [List.map_map]
    symm
    apply length_filter_map_eq
    intro pr hpr
    show (itemOfStored (pr.2, (fs pr.2).getD Entry.dir)).is_dir =
      pr.1.is_dir
    by_cases hf : pr.1.is_file = true
    · obtain ⟨b, hb⟩ := hfileF pr hpr hf
      rw [hb, hflag pr.1 (hmemF pr hpr).1, hf]
      rfl
    · have hf0 : pr.1.is_file = false := by
        cases h2 : pr.1.is_file
        · rfl
        · exact absurd h2 hf
      rw [hdirF pr hpr hf0, hflag pr.1 (hmemF pr hpr).1, hf0]
      rfl
  have hwv2 : writableView
      (removal (filter_hans_dir m) (foldSet (filter_hans_dir m) fs))
      ((filter_hans_dir m).map (fun pr =>
        (itemOfStored (pr.2, (fs pr.2).getD Entry.dir), pr.2))) := by
    refine ⟨?_, ?_, ?_⟩
    · intro er her hf
      rcases List.mem_map.mp her with ⟨pr, hpr, hqe⟩
      subst hqe
      have hprf : pr.1.is_file = true := by
        rw [← hitem_isfile pr hpr]
        exact hf
      refine ⟨(hmemF pr hpr).2.2, ?_, ?_⟩
      · intro q hq
        have hq2 : q ∈ pr.2.dropLast.inits := hq
        have hqi := mem_inits_ipo hq2
        have hipo : q.isPrefixOf pr.2 = true := ipo_trans hqi (dropLast_ipo _)
        have hne2 : q ≠ pr.2 := by
          intro hc
          have hlt := dropLast_length_lt (hmemF pr hpr).2.2
          have hle := ipo_length hqi
          rw [hc] at hle
          omega
        exact hg2_dirs q (hchain_strict pr hpr q hipo hne2)
      · show removal _ _ pr.2 ≠ some Entry.dir
        rw [hg2 pr.2, if_pos ⟨pr, hpr, hprf, rfl⟩]
        simp
    · intro er her hf
      rcases List.mem_map.mp her with ⟨pr, hpr, hqe⟩
      subst hqe
      have hprf : pr.1.is_file = false := by
        rw [← hitem_isfile pr hpr]
        exact hf
      intro q hq
      have hq2 : q ∈ pr.2.inits := hq
      have hqi := mem_inits_ipo hq2
      by_cases heq : q = pr.2
      · rw [heq]
        exact hg2_dirs pr.2 (hdirF pr hpr hprf)
      · exact hg2_dirs q (hchain_strict pr hpr q hqi heq)
    · intro er her hfe qr2 her2
      rcases List.mem_map.mp her with ⟨pr, hpr, hqe⟩
      subst hqe
      rcases List.mem_map.mp her2 with ⟨qr, hqr, hqe2⟩
      subst hqe2
      have hprf : pr.1.is_file = true := by
        rw [← hitem_isfile pr hpr]
        exact hfe
      constructor
      · intro hqf hipo
        have hqrf : qr.1.is_file = true := by
          rw [← hitem_isfile qr hqr]
          exact hqf
        exact (hsep pr hpr hprf qr hqr).1 hqrf hipo
      · intro hqf
        have hqrf : qr.1.is_file = false := by
          rw [← hitem_isfile qr hqr]
          exact hqf
        exact (hsep pr hpr hprf qr hqr).2 hqrf
  have hwv2' : writableView
      (removal (filter_hans_dir m) (foldSet (filter_hans_dir m) fs))
      ((read_from_backup_zip ((filter_hans_dir m).map
        (fun pr => (pr.2, (fs pr.2).getD Entry.dir)))).map
          (fun it => (it, it.lowercase_name))) := by
    rw [hview, hviewF]
    exact hwv2
  have hrestore := english_ok
    (read_from_backup_zip ((filter_hans_dir m).map
      (fun pr => (pr.2, (fs pr.2).getD Entry.dir))))
    m (foldSet (filter_hans_dir m) fs) hcount hwv2'
  have hfinal : ∀ p,
      foldSet ((filter_hans_dir m).map (fun pr =>
        (itemOfStored (pr.2, (fs pr.2).getD Entry.dir), pr.2)))
        (removal (filter_hans_dir m) (foldSet (filter_hans_dir m) fs)) p =
      fs p := by
    intro p
    by_cases hp : ∃ pr ∈ filter_hans_dir m, pr.1.is_file = true ∧ pr.2 = p
    · obtain ⟨pr0, hpr0, hf0, hp0⟩ := hp
      obtain ⟨b0, hb0⟩ := hfileF pr0 hpr0 hf0
      rw [hp0] at hb0
      have hlw : lastFileWrite ((filter_hans_dir m).map (fun pr =>
          (itemOfStored (pr.2, (fs pr.2).getD Entry.dir), pr.2))) p =
          some b0 := by
        apply lastFileWrite_const
        · refine ⟨(itemOfStored (pr0.2, (fs pr0.2).getD Entry.dir), pr0.2),
            List.mem_map.mpr ⟨pr0, hpr0, rfl⟩, ?_, hp0⟩
          show (itemOfStored (pr0.2, (fs pr0.2).getD Entry.dir)).is_file =
            true
          rw [hitem_isfile pr0 hpr0]
          exact hf0
        · intro er her hfe hep
          rcases List.mem_map.mp her with ⟨qr, hqr, hqe⟩
          subst hqe
          have hqrf : qr.1.is_file = true := by
            rw [← hitem_isfile qr hqr]
            exact hfe
          have hqp : qr.2 = p := hep
          show (itemOfStored (qr.2, (fs qr.2).getD Entry.dir)).bytes = b0
          rw [hqp, hb0]
          rfl
      rw [foldSet_apply, hlw, hb0]
    · have hlw : lastFileWrite ((filter_hans_dir m).map (fun pr =>
          (itemOfStored (pr.2, (fs pr.2).getD Entry.dir), pr.2))) p =
          none := by
        apply lastFileWrite_eq_none
        intro er her hfe
        rcases List.mem_map.mp her with ⟨qr, hqr, hqe⟩
        subst hqe
        show qr.2 ≠ p
        intro hc
        apply hp
        refine ⟨qr, hqr, ?_, hc⟩
        rw [← hitem_isfile qr hqr]
        exact hfe
      rw [foldSet_apply, hlw, hg2, if_neg hp]
  have hfs2 : foldSet ((read_from_backup_zip ((filter_hans_dir m).map
      (fun pr => (pr.2, (fs pr.2).getD Entry.dir)))).map
        (fun it => (it, it.lowercase_name)))
      (removal (filter_hans_dir m) (foldSet (filter_hans_dir m) fs)) =
      fs := by
    rw [hview, hviewF]
    funext p
    exact hfinal p
  apply overlayThenRestore_ok hmc
  show english (read_from_backup_zip ((filter_hans_dir m).map
      (fun pr => (pr.2, (fs pr.2).getD Entry.dir)))) m
      (foldSet (filter_hans_dir m) fs) = (Except.ok (), fs)
  rw [hrestore, hfs2]

def mRT : Manifest :=
  [⟨["language", "zh_cn_hans", "f"], ["language", "zh_cn_hans", "f"],
      [1], true, false⟩,
   ⟨["language", "zh_cn_hans", "d"], ["language", "zh_cn_hans", "d"],
      [], false, true⟩]

def fsRT : Fs :=
  Fs.ofPairs [([], Entry.dir), (["f"], Entry.file [9]), (["d"], Entry.dir)]

theorem c3_witness : overlayThenRestore [] mRT fsRT = Except.ok fsRT :=
  c3_roundtrip [] mRT fsRT
    (ofPairs_WF _ (by decide) (by decide))
    (by decide) (by decide) (by decide)
end Alien
